import Mathlib

/-!
Verification of the search-engine core (`SearchEngine.js`): the incremental
index synchronizer, the query parser, the relevance ranker and the search
orchestrator, shallowly embedded as executable Lean definitions.

External collaborators (change-log repository, item store, settings store,
script-class detector, diacritics library) are modelled from the spec where
noted; everything else is translated directly from the source.
-/

deriving instance DecidableEq for Except

namespace SearchEngine

/-- Modelled from the spec: the `normalize()`/`removeDiacritics` steps of
`normalizeText_` are Unicode normalization and diacritic stripping, which are
the identity on the ASCII strings considered here; `toLowerCase` lower-cases
every character. -/
def normalizeText (s : String) : String := String.mk (s.data.map Char.toLower)

/-- A source item row (`notes` table): `{id, title, body, is_conflict,
encryption_applied}`. -/
structure Note where
  id : String
  title : String
  body : String
  is_conflict : Bool
  encryption_applied : Bool
deriving DecidableEq

/-- A change-log row (`item_changes` table): `{id, item_id, item_type, type}`. -/
structure ChangeRecord where
  id : Nat
  item_id : String
  item_type : Nat
  type : Nat
deriving DecidableEq

/-- A row of the normalized-index table (`notes_normalized`). -/
structure NormalizedRow where
  id : String
  title : String
  body : String
deriving DecidableEq

/-- Modelled from the spec: the change-type enum `Create|Update|Delete`
(`ItemChange.TYPE_CREATE` etc.); concrete numeric values are opaque to the
core, which only compares for equality. -/
def TYPE_CREATE : Nat := 1

/-- Modelled from the spec: `ItemChange.TYPE_UPDATE`. -/
def TYPE_UPDATE : Nat := 2

/-- Modelled from the spec: `ItemChange.TYPE_DELETE`. -/
def TYPE_DELETE : Nat := 3

/-- Modelled from the spec: `BaseModel.TYPE_NOTE`, the item-type tag the
synchronizer restricts its change fetches to. -/
def TYPE_NOTE : Nat := 1

/-- `normalizeNote_`: copy a note with title and body normalized. -/
def normalizeNote (n : Note) : Note :=
  { n with title := normalizeText n.title, body := normalizeText n.body }

/-! ## Query parser -/

/-- The raw per-column term lists built by the scan phase of `parseQuery`:
an insertion-ordered mapping from column name to term strings, as a JS
object preserves string-key insertion order. -/
abbrev TermMap := List (String × List String)

/-- JS `terms[k] = v`: replace in place when the key exists (keeping its
original position), otherwise append the new key. -/
def setKey (m : TermMap) (k : String) (v : List String) : TermMap :=
  if m.any (fun p => p.1 == k) then
    m.map (fun p => if p.1 == k then (k, v) else p)
  else
    m ++ [(k, v)]

/-- JS `terms[k].push(t)`: append `t` to the list at key `k`. -/
def pushTerm (m : TermMap) (k : String) (t : String) : TermMap :=
  m.map (fun p => if p.1 == k then (p.1, p.2 ++ [t]) else p)

/-- The scan state of `parseQuery`: the term map, the quote flag, the
current column and the accumulating term buffer. -/
structure ParseState where
  terms : TermMap
  inQuote : Bool
  currentCol : String
  currentTerm : String
deriving DecidableEq

/-- One step of the character scan in `parseQuery` (the `for` loop body). -/
def parseStep (st : ParseState) (c : Char) : ParseState :=
  if c == Char.ofNat 34 then
    if st.inQuote then
      { st with terms := pushTerm st.terms st.currentCol st.currentTerm,
                currentTerm := "", inQuote := false }
    else
      { st with inQuote := true }
  else if c == Char.ofNat 32 && !st.inQuote then
    if st.currentTerm == "" then st
    else
      { st with terms := pushTerm st.terms st.currentCol st.currentTerm,
                currentCol := "_", currentTerm := "" }
  else if c == Char.ofNat 58 && !st.inQuote then
    { st with terms := setKey st.terms st.currentTerm [],
              currentCol := st.currentTerm, currentTerm := "" }
  else
    { st with currentTerm := st.currentTerm.push c }

/-- The scan phase of `parseQuery`: fold the step over the characters, with
the initial state holding one empty default column (sentinel name an
underscore), `inQuote = false` and an empty buffer, then flush a trailing
non-empty buffer. -/
def parseScan (query : String) : TermMap :=
  let st := query.data.foldl parseStep
    { terms := [("_", [])], inQuote := false, currentCol := "_", currentTerm := "" }
  if st.currentTerm == "" then st.terms
  else pushTerm st.terms st.currentCol st.currentTerm

/-- Modelled from the spec: `pregQuote` (from the external string-utils
library) escapes every regex metacharacter with a backslash. -/
def pregSpecials : List Char :=
  ['.', '\\', '+', '*', '?', '[', '^', ']', '$', '(', ')',
   Char.ofNat 123, Char.ofNat 125, '=', '!', '<', '>', '|', ':', '-', Char.ofNat 35]

/-- Modelled from the spec: `pregQuote` escapes regex metacharacters. -/
def pregQuote (s : String) : String :=
  String.mk (s.data.flatMap (fun c => if pregSpecials.contains c then ['\\', c] else [c]))

/-- The `while` loop of `queryTermToRegex` stripping leading `*` characters. -/
def stripLeadingStars : List Char → List Char
  | '*' :: rest => stripLeadingStars rest
  | l => l

/-- The character set excluded by the wildcard expansion in
`queryTermToRegex` (space, tab, newline, carriage return and punctuation). -/
def wildcardExcluded : String :=
  " \t\n\r,.,+-*?!=\x7b\x7d<>|:\x22\x27()[]"

/-- `queryTermToRegex`: strip leading `*`s, escape the rest, and rewrite a
trailing (escaped) `*` into a lazy character-class repetition. -/
def queryTermToRegex (term : String) : String :=
  let term := String.mk (stripLeadingStars term.data)
  let regexString := pregQuote term
  if regexString.data.getLast? == some '*' then
    String.mk (regexString.data.take (regexString.data.length - 2)) ++
      "[^" ++ pregQuote wildcardExcluded ++ "]" ++ "*?"
  else
    regexString

/-- The kind of a parsed term: plain text or a wildcard-derived pattern. -/
inductive TermKind where
  | text
  | regex
deriving DecidableEq

/-- A post-processed query term, as built by the filtering phase of
`parseQuery`: kind, value, script class and the original text. -/
structure Term where
  type : TermKind
  value : String
  scriptType : String
  originalValue : String
deriving DecidableEq

/-- The per-term conversion in `parseQuery`: a term containing `*` becomes a
`regex` term via `queryTermToRegex`, any other term a `text` term. The
script-class detector `st` is an external collaborator passed in. -/
def toTerm (st : String → String) (t : String) : Term :=
  if t.data.contains '*' then
    { type := TermKind.regex, value := queryTermToRegex t, scriptType := st t, originalValue := t }
  else
    { type := TermKind.text, value := t, scriptType := st t, originalValue := t }

/-- The per-column filtering in `parseQuery`: the reverse-index splice drops
every bare `*` term, and each remaining term is converted in place. -/
def processTerms (st : String → String) (ts : List String) : List Term :=
  (ts.filter (fun t => t != "*")).map (toTerm st)

/-- The result of `parseQuery`: term count, column names in insertion order,
and the per-column term lists. -/
structure ParsedQuery where
  termCount : Nat
  keys : List String
  terms : List (String × List Term)
deriving DecidableEq

/-- `parseQuery`: scan the query into raw per-column term lists, drop the
columns whose raw list is empty, convert the terms of each remaining column
and sum their (post-splice) counts into `termCount`. -/
def parseQuery (st : String → String) (query : String) : ParsedQuery :=
  let raw := parseScan query
  let kept := raw.filter (fun p => !p.2.isEmpty)
  { termCount := (kept.map (fun p => (processTerms st p.2).length)).sum,
    keys := kept.map (fun p => p.1),
    terms := kept.map (fun p => (p.1, processTerms st p.2)) }

/-! ## Relevance ranker -/

/-- Helper for `chunked`: `acc` is the current chunk reversed, `room` the
capacity left in it; a full chunk is flushed when another element arrives. -/
def chunkAux (k : Nat) : List α → List α → Nat → List (List α)
  | [], acc, _ => [acc.reverse]
  | x :: xs, acc, Nat.succ room => chunkAux k xs (x :: acc) room
  | x :: xs, acc, 0 => acc.reverse :: chunkAux k xs [x] (k - 1)

/-- Splitting a list into chunks of `k` elements (the last chunk may be
shorter): the splice-by-100 batching of `rebuildIndex_`, and the 4-tuple
grouping of the offsets documentation. -/
def chunked (k : Nat) (l : List α) : List (List α) :=
  match l with
  | [] => []
  | x :: xs => chunkAux k xs [x] (k - 1)

/-- A raw match row as consumed by `orderResults_`: id, title and the
occurrence offsets (the source receives them as a space-joined string of
integers and splits it back; the model holds the split list directly). -/
structure Row where
  id : String
  title : String
  offsets : List Int
deriving DecidableEq

/-- A match row with its computed weight (`row.weight` assignment in
`orderResults_`). -/
structure ScoredRow where
  id : String
  title : String
  offsets : List Int
  weight : Rat
deriving DecidableEq

/-- The position-field extraction of the `calculateWeight_` loop: for each of
the `floor(length / 4)` occurrence groups, read `offsets[i * 4 + 2]`. -/
def positionsOf (offsets : List Int) : List Int :=
  (List.range (offsets.length / 4)).map (fun i => offsets.getD (i * 4 + 2) 0)

/-- The spread accumulation loop of `calculateWeight_`: running sum of
`dist - previousDist`, with `previousDist` starting as null. -/
def spreadLoop : List Int → Option Int → Int → Int
  | [], _, spread => spread
  | dist :: rest, none, spread => spreadLoop rest (some dist) spread
  | dist :: rest, some previousDist, spread =>
      spreadLoop rest (some dist) (spread + (dist - previousDist))

/-- `calculateWeight_`: for a single-term query the weight is the occurrence
count; otherwise it is the occurrence count divided by the spread. Weights
are modelled as rationals (the source uses JS numbers). -/
def calculateWeight (offsets : List Int) (termCount : Nat) : Rat :=
  let occurenceCount := offsets.length / 4
  if termCount = 1 then (occurenceCount : Rat)
  else (occurenceCount : Rat) / ((spreadLoop (positionsOf offsets) none 0 : Int) : Rat)

/-- The weight assignment of `orderResults_` on one row. -/
def scoreRow (parsedQuery : ParsedQuery) (r : Row) : ScoredRow :=
  { id := r.id, title := r.title, offsets := r.offsets,
    weight := calculateWeight r.offsets parsedQuery.termCount }

/-- `orderResults_`: attach each row its weight, then sort by the comparator
that puts larger weights first. JS `Array.sort` is an unspecified (unstable)
comparison sort; it is modelled by insertion sort on the same ordering. -/
def orderResults (rows : List Row) (parsedQuery : ParsedQuery) : List ScoredRow :=
  List.insertionSort (fun a b => b.weight ≤ a.weight) (rows.map (scoreRow parsedQuery))

/-- The spec's description of the occurrence groups: the complete 4-tuples
among the offsets, in reported order. -/
def specGroups (offsets : List Int) : List (List Int) :=
  (chunked 4 offsets).filter (fun g => g.length == 4)

/-- The spec's occurrence count: the number of 4-tuple occurrence groups. -/
def specOcc (offsets : List Int) : Nat := (specGroups offsets).length

/-- The spec's position fields: the third element of each 4-tuple. -/
def specPositions (offsets : List Int) : List Int :=
  (specGroups offsets).map (fun g => g.getD 2 0)

/-- The spec's spread: the sum of successive differences between consecutive
occurrences' position fields, in reported order. -/
def specSpread (ps : List Int) : Int :=
  ((ps.zip ps.tail).map (fun p => p.2 - p.1)).sum

/-- The claim's weight formula, written from the spec's words. -/
def specWeight (offsets : List Int) (termCount : Nat) : Rat :=
  if termCount = 1 then (specOcc offsets : Rat)
  else (specOcc offsets : Rat) / ((specSpread (specPositions offsets) : Int) : Rat)

/-! ## Search orchestrator -/

/-- The split of `basicSearch` (`query.split` on a single space character):
every space separates tokens, adjacent spaces producing empty tokens. -/
def splitOnSpaceAux : List Char → List Char → List (List Char)
  | [], acc => [acc.reverse]
  | c :: rest, acc =>
      if c == Char.ofNat 32 then acc.reverse :: splitOnSpaceAux rest []
      else splitOnSpaceAux rest (c :: acc)

/-- JS `String.prototype.trim`: drop leading and trailing whitespace. -/
def trimChars (l : List Char) : List Char :=
  ((l.dropWhile Char.isWhitespace).reverse.dropWhile Char.isWhitespace).reverse

/-- JS `Array.prototype.join` with a `*` separator. -/
def joinWithStar : List String → String
  | [] => ""
  | [t] => t
  | t :: rest => t ++ "*" ++ joinWithStar rest

/-- `basicSearch`: split the query on spaces, keep the trimmed non-empty
tokens, and join them with a wildcard between and around them. The external
item store (`Note.previews`) is modelled by returning the `anywherePattern`
it is asked for. -/
def basicSearch (query : String) : String :=
  let p := splitOnSpaceAux query.data []
  let temp := ((p.map trimChars).filter (fun t => !t.isEmpty)).map String.mk
  "*" ++ joinWithStar temp ++ "*"

/-- The script classes routed away from FTS in `search`. -/
def cjkScripts : List String := ["ja", "zh", "ko"]

/-- The outcome of `search`: either the ranked rows of the indexed path, or
the preview request of the fallback substring path (carrying the wildcard
pattern sent to the item store). -/
inductive SearchResult where
  | indexed (rows : List ScoredRow)
  | fallback (anywherePattern : String)
deriving DecidableEq

/-- `search`: normalize the query, route to the fallback substring search
when FTS is disabled or the script class is CJK, and otherwise parse the
query and rank the rows returned by the store's MATCH query. The store's
response is passed in as `dbRes` (an exception models a failed MATCH query);
the result pairs the outcome with the warning messages logged. A failed
MATCH query is caught: `search` logs a warning and returns an empty indexed
result instead of propagating the error. -/
def search (st : String → String) (ftsEnabled : Bool)
    (dbRes : Except String (List Row)) (query0 : String) :
    Except String (SearchResult × List String) :=
  let query := normalizeText query0
  let sc := st query
  if !ftsEnabled || cjkScripts.contains sc then
    Except.ok (SearchResult.fallback (basicSearch query), [])
  else
    let parsedQuery := parseQuery st query
    match dbRes with
    | Except.ok rows => Except.ok (SearchResult.indexed (orderResults rows parsedQuery), [])
    | Except.error e =>
        Except.ok (SearchResult.indexed [],
          ["Cannot execute MATCH query: " ++ query ++ ": " ++ e])

/-- The split step of the claimed fallback behaviour: split on every
whitespace character (written from the claim's words, to be compared with
the source's split on the space character of the normalized query). -/
def splitOnWsAux : List Char → List Char → List (List Char)
  | [], acc => [acc.reverse]
  | c :: rest, acc =>
      if c.isWhitespace then acc.reverse :: splitOnWsAux rest []
      else splitOnWsAux rest (c :: acc)

/-- The claim's fallback pattern, written from the claim's words: split the
pre-normalization query on whitespace and join the non-empty tokens with a
wildcard between and around them. -/
def claimFallbackPattern (query : String) : String :=
  let temp := ((splitOnWsAux query.data []).map String.mk).filter (fun t => !t.isEmpty)
  "*" ++ joinWithStar temp ++ "*"

/-! ## Index synchronizer -/

/-- The persistent state the synchronizer touches: the `notes` table, the
`notes_normalized` index table, the `item_changes` log, the two persisted
settings, and the in-memory `isIndexing_` run guard. -/
structure DbState where
  notes : List Note
  notes_normalized : List NormalizedRow
  item_changes : List ChangeRecord
  lastProcessedChangeId : Nat
  initialIndexingDone : Bool
  isIndexing : Bool
deriving DecidableEq

/-- The eligibility filter appearing in every note select:
`is_conflict = 0 AND encryption_applied = 0`. -/
def eligible (n : Note) : Bool := !n.is_conflict && !n.encryption_applied

/-- Modelled from the spec: `ItemChange.lastChangeId()`, the change-log
high-water mark — the largest id in the log (0 when the log is empty). -/
def changeLogMax (changes : List ChangeRecord) : Nat :=
  changes.foldl (fun m c => max m c.id) 0

/-- The row inserted into `notes_normalized` for a note (insert of the
normalized id, title and body under the given id). -/
def normalizedRowFor (noteId : String) (n : Note) : NormalizedRow :=
  { id := noteId, title := normalizeText n.title, body := normalizeText n.body }

/-- `rebuildIndex_`: select the eligible note ids, capture the change-log
high-water mark, clear `notes_normalized`, then process the ids in batches
of 100 — re-selecting each batch's rows with the eligibility filter and
inserting their normalized form — and finally persist the captured
watermark. -/
def rebuildIndex (s : DbState) : DbState :=
  let noteIds := (s.notes.filter eligible).map (fun n => n.id)
  let lastChangeId := changeLogMax s.item_changes
  let rows := (chunked 100 noteIds).flatMap (fun currentIds =>
    (s.notes.filter (fun n => currentIds.contains n.id && eligible n)).map
      (fun n => normalizedRowFor n.id n))
  { s with notes_normalized := rows, lastProcessedChangeId := lastChangeId }

/-- `noteById_`: the first note with the given id, or none when the note has
been deleted since the change was recorded. -/
def noteById (notes : List Note) (noteId : String) : Option Note :=
  notes.find? (fun n => n.id == noteId)

/-- The change fetch of `syncTables`: note-type changes with id above the
watermark, ordered ascending by id, limited to 100. -/
def fetchChanges (changes : List ChangeRecord) (lastChangeId : Nat) : List ChangeRecord :=
  (List.insertionSort (fun a b => a.id ≤ b.id)
    (changes.filter (fun c => c.item_type == TYPE_NOTE && lastChangeId < c.id))).take 100

/-- The per-change loop of `syncTables` building one transactional batch:
Create/Update delete the normalized row and re-insert it when the note still
exists; Delete deletes it; any other change type throws
`Invalid change type` before the batch is applied, so a failed batch leaves
the table and the persisted watermark untouched. The local watermark is
advanced to each processed change's id. -/
def processChanges (fetched : List Note) :
    List ChangeRecord → List NormalizedRow → Nat → Except String (List NormalizedRow × Nat)
  | [], nn, lastChangeId => Except.ok (nn, lastChangeId)
  | change :: rest, nn, _lastChangeId =>
    if change.type == TYPE_CREATE || change.type == TYPE_UPDATE then
      let nn1 := nn.filter (fun r => r.id != change.item_id)
      match noteById fetched change.item_id with
      | some note =>
          processChanges fetched rest (nn1 ++ [normalizedRowFor change.item_id note]) change.id
      | none => processChanges fetched rest nn1 change.id
    else if change.type == TYPE_DELETE then
      processChanges fetched rest (nn.filter (fun r => r.id != change.item_id)) change.id
    else
      Except.error ("Invalid change type: " ++ toString change.type)

/-- One batch of `syncTables`: bulk-read the referenced eligible notes once,
then run the per-change loop. -/
def processBatch (notes : List Note) (batch : List ChangeRecord)
    (nn : List NormalizedRow) (lastChangeId : Nat) : Except String (List NormalizedRow × Nat) :=
  let noteIds := batch.map (fun c => c.item_id)
  let fetched := notes.filter (fun n => noteIds.contains n.id && eligible n)
  processChanges fetched batch nn lastChangeId

/-- Modelled from the spec: `ItemChangeUtils.deleteProcessedChanges()` prunes
the fully-applied records — those at or below the persisted watermark. -/
def deleteProcessedChanges (s : DbState) : DbState :=
  { s with item_changes := s.item_changes.filter (fun c => s.lastProcessedChangeId < c.id) }

/-- The incremental loop of `syncTables`, with explicit fuel standing for the
implicit bound on iterations (each applied batch consumes change records).
An empty fetch exits the loop, prunes the log and clears the run guard; an
applied batch persists the table update and the new watermark and loops; a
thrown `Invalid change type` propagates with the state as already persisted —
in particular with the run guard still set, as in the source, which has no
scoped release. -/
def syncLoop : Nat → DbState → Nat → DbState × Option String
  | 0, s, _ => (deleteProcessedChanges { s with isIndexing := false }, none)
  | Nat.succ fuel, s, lastChangeId =>
    let changes := fetchChanges s.item_changes lastChangeId
    if changes.isEmpty then
      (deleteProcessedChanges { s with isIndexing := false }, none)
    else
      match processBatch s.notes changes s.notes_normalized lastChangeId with
      | Except.error e => (s, some e)
      | Except.ok (nn, newLast) =>
          syncLoop fuel { s with notes_normalized := nn, lastProcessedChangeId := newLast } newLast

/-- `syncTables` (the `syncIndex()` entry point): a no-op while the run guard
is set; otherwise set the guard, run the initial rebuild when the done flag
is unset (then set the flag and clear the guard), or run the incremental
loop from the persisted watermark. -/
def syncTables (s : DbState) : DbState × Option String :=
  if s.isIndexing then (s, none)
  else
    let s1 := { s with isIndexing := true }
    if !s1.initialIndexingDone then
      let s2 := rebuildIndex s1
      ({ s2 with initialIndexingDone := true, isIndexing := false }, none)
    else
      syncLoop (s1.item_changes.length + 1) s1 s1.lastProcessedChangeId

/-- An event in the life of the synchronizer: a sync run, or the external
change-log collaborator appending a record. -/
inductive SyncEvent where
  | runSync
  | appendChange (c : ChangeRecord)

/-- Run a sequence of events against the state. -/
def runEvents : List SyncEvent → DbState → DbState
  | [], s => s
  | SyncEvent.runSync :: evs, s => runEvents evs (syncTables s).1
  | SyncEvent.appendChange c :: evs, s =>
      runEvents evs { s with item_changes := s.item_changes ++ [c] }

/-- The state invariant under which the watermark is monotone: either the
initial indexing is done (so only the incremental path, which only moves the
watermark up to fetched ids above it, can run), or the watermark does not
exceed the change-log high-water mark (so a rebuild cannot move it down). -/
def WellFormed (s : DbState) : Prop :=
  s.initialIndexingDone = true ∨ s.lastProcessedChangeId ≤ changeLogMax s.item_changes

/-! ## Theorems -/

/-- C4: `parse("title:foo bar")` returns a ParsedQuery with `termCount = 2`,
a column named `title` containing exactly one Text term with value `foo`,
and the default (sentinel) column containing exactly one Text term with
value `bar` — for any script-class detector. -/
theorem parseQuery_title_foo_bar (st : String → String) :
  parseQuery st "title:foo bar" =
    { termCount := 2, keys := ["_", "title"],
      terms := [("_", [{ type := TermKind.text, value := "bar",
                          scriptType := st "bar", originalValue := "bar" }]),
                ("title", [{ type := TermKind.text, value := "foo",
                             scriptType := st "foo", originalValue := "foo" }])] } := rfl

/-- Lookup of a column in the scan-phase term map. -/
def lookupCol (m : TermMap) (k : String) : Option (List String) :=
  (m.find? (fun p => p.1 == k)).map (fun p => p.2)

/-- C10: at every unquoted `:` the parser commits the buffer as the current
column and resets that column's term list to empty (`terms[currentCol] = []`
runs unconditionally), so for every prior term map the terms committed to a
re-introduced column are discarded; in particular
`parse("title:foo title:bar")` yields only the term `bar` under column
`title` and `termCount = 1`. -/
theorem parseQuery_column_reintroduction_resets :
  (∀ scanState : ParseState, scanState.inQuote = false →
     parseStep scanState (Char.ofNat 58) =
       { terms := setKey scanState.terms scanState.currentTerm [],
         inQuote := false, currentCol := scanState.currentTerm, currentTerm := "" }) ∧
  (∀ (m : TermMap) (k : String), lookupCol (setKey m k []) k = some []) ∧
  (∀ st : String → String,
     parseQuery st "title:foo title:bar" =
       { termCount := 1, keys := ["title"],
         terms := [("title", [{ type := TermKind.text, value := "bar",
                                scriptType := st "bar", originalValue := "bar" }])] }) := by
  refine ⟨?_, ?_, fun st => rfl⟩
  · intro scanState hq
    obtain ⟨terms, inQuote, currentCol, currentTerm⟩ := scanState
    simp at hq
    subst hq
    rfl
  · intro m k
    unfold setKey lookupCol
    by_cases hmem : m.any (fun p => p.1 == k)
    · rw [if_pos hmem]
      have hfind : ∀ mm : TermMap, (∃ p2 ∈ mm, (p2.1 == k) = true) →
          (mm.map (fun p2 => if p2.1 == k then (k, ([] : List String)) else p2)).find?
            (fun p2 => p2.1 == k) = some (k, []) := by
        intro mm
        induction mm with
        | nil =>
          rintro ⟨p2, hp2, _⟩
          cases hp2
        | cons q rest ih =>
          rintro ⟨p2, hp2, hp2k⟩
          rw [List.map_cons]
          by_cases hq : (q.1 == k) = true
          · rw [if_pos hq]
            exact List.find?_cons_of_pos _ (by simp)
          · rw [if_neg hq]
            rw [List.find?_cons_of_neg (p := fun p2 => p2.1 == k)
              (List.map (fun p2 => if p2.1 == k then (k, ([] : List String)) else p2) rest) hq]
            apply ih
            refine ⟨p2, ?_, hp2k⟩
            rcases List.mem_cons.mp hp2 with hpq | hprest
            · rw [hpq] at hp2k
              exact absurd hp2k hq
            · exact hprest
      rw [hfind m (List.any_eq_true.mp hmem)]
      rfl
    · rw [if_neg hmem]
      have hnone : m.find? (fun p2 => p2.1 == k) = none := by
        rw [List.find?_eq_none]
        intro p2 hp2 hp2k
        exact hmem (List.any_eq_true.mpr ⟨p2, hp2, hp2k⟩)
      rw [List.find?_append, hnone, List.find?_cons_of_pos _ (by simp)]
      rfl

/-- Witness state for C10: mid-scan, column `title` already holds `foo`, the
buffer holds `title` again and a `:` arrives; the re-introduction empties the
column, discarding `foo`. -/
def reintroState : ParseState :=
  { terms := [("_", []), ("title", ["foo"])], inQuote := false,
    currentCol := "_", currentTerm := "title" }

theorem parseQuery_column_reintroduction_resets_witness :
  reintroState.inQuote = false ∧
  parseStep reintroState (Char.ofNat 58) =
    { terms := [("_", []), ("title", [])], inQuote := false,
      currentCol := "title", currentTerm := "" } :=
  ⟨rfl, parseQuery_column_reintroduction_resets.1 reintroState rfl⟩

/-- C8: a `syncIndex()` call made while the run guard is set returns
immediately as a no-op: the whole state — in particular the persisted
watermark, the normalized-index table and the initial-indexing-done flag —
is unchanged and no error is reported. -/
theorem syncTables_guard_noop (s : DbState) (h : s.isIndexing = true) :
  syncTables s = (s, none) ∧
  (syncTables s).1.lastProcessedChangeId = s.lastProcessedChangeId ∧
  (syncTables s).1.notes_normalized = s.notes_normalized ∧
  (syncTables s).1.initialIndexingDone = s.initialIndexingDone := by
  simp [syncTables, h]

/-- Witness for C8 at a concrete in-progress state. -/
def guardState : DbState :=
  { notes := [], notes_normalized := [{ id := "n", title := "t", body := "b" }],
    item_changes := [{ id := 3, item_id := "n", item_type := 1, type := 1 }],
    lastProcessedChangeId := 2, initialIndexingDone := true, isIndexing := true }

theorem syncTables_guard_noop_witness :
  guardState.isIndexing = true ∧ syncTables guardState = (guardState, none) :=
  ⟨rfl, (syncTables_guard_noop guardState rfl).1⟩

/-- C7: running `rebuildIndex()` twice in a row with no intervening item
changes produces the same NormalizedDocument set as running it once, and the
result does not depend on whatever (possibly partial) content the table held
before the run, since the run clears it first. -/
theorem rebuildIndex_idempotent (s : DbState) (nn0 : List NormalizedRow) :
  (rebuildIndex (rebuildIndex s)).notes_normalized = (rebuildIndex s).notes_normalized ∧
  (rebuildIndex { s with notes_normalized := nn0 }).notes_normalized
    = (rebuildIndex s).notes_normalized :=
  ⟨rfl, rfl⟩

/-- C1 failing input: a sync run (initial indexing done) facing one pending
note change record whose change type is 7, none of Create/Update/Delete. -/
def invalidChangeState : DbState :=
  { notes := [], notes_normalized := [],
    item_changes := [{ id := 1, item_id := "a", item_type := TYPE_NOTE, type := 7 }],
    lastProcessedChangeId := 0, initialIndexingDone := true, isIndexing := false }

/-- C1: on an unrecognized change type the run aborts with the fatal
`Invalid change type` error, as claimed — but contrary to the claim the run
guard is NOT released on this exit path (the source has no scoped release),
so the subsequent `syncIndex()` call IS a no-op. -/
theorem syncTables_invalid_change_type_keeps_guard :
  (syncTables invalidChangeState).2 = some "Invalid change type: 7" ∧
  (syncTables invalidChangeState).1.isIndexing = true ∧
  syncTables (syncTables invalidChangeState).1 = ((syncTables invalidChangeState).1, none) := by
  decide

/-- C2 counterexample: the fallback substring search does not split the
pre-normalization query on whitespace. For the query `"A\tB"` (FTS disabled)
the claim's reading predicts the pattern `*A*B*` — whitespace-split of the
raw query — but the code normalizes first and splits only on spaces,
requesting `*a\tb*`. -/
theorem search_fallback_not_pre_normalization_cex :
  search (fun _ => "en") false (Except.ok []) "A\tB" =
    Except.ok (SearchResult.fallback "*a\tb*", []) ∧
  claimFallbackPattern "A\tB" = "*A*B*" ∧
  ("*a\tb*" : String) ≠ "*A*B*" := by decide

/-- C2 amended: every query routed to the fallback substring search (FTS
disabled, or CJK script class) is first normalized; the normalized query is
split on space characters, each token trimmed, and the non-empty tokens are
joined with a wildcard between and around them into the preview pattern; the
parser and ranker are not invoked (the outcome is the fallback preview
request, built without them). -/
theorem search_fallback_pattern (st : String → String) (ftsEnabled : Bool)
    (dbRes : Except String (List Row)) (q : String)
    (h : ftsEnabled = false ∨ cjkScripts.contains (st (normalizeText q)) = true) :
    search st ftsEnabled dbRes q =
      Except.ok (SearchResult.fallback (basicSearch (normalizeText q)), []) := by
  unfold search
  rcases h with h | h
  · simp [h]
  · have h2 : st (normalizeText q) ∈ cjkScripts := by simpa using h
    simp [h2]

theorem search_fallback_pattern_witness :
  ((false = false ∨ cjkScripts.contains ((fun _ => "en") (normalizeText "x y")) = true) ∧
   search (fun _ => "en") false (Except.ok []) "x y" =
     Except.ok (SearchResult.fallback (basicSearch (normalizeText "x y")), [])) :=
  ⟨Or.inl rfl, search_fallback_pattern (fun _ => "en") false (Except.ok []) "x y" (Or.inl rfl)⟩

/-- C9: on the indexed-search path (FTS enabled, non-CJK script), a failing
MATCH query is caught: `search` returns normally with an empty result list
and the logged warning; it neither propagates the failure (the result is
`ok`) nor switches to the fallback substring search (the outcome is an
indexed result, not a fallback preview request). -/
theorem search_match_error_caught (st : String → String) (e : String) (q : String)
    (h : cjkScripts.contains (st (normalizeText q)) = false) :
    search st true (Except.error e) q =
      Except.ok (SearchResult.indexed [],
        ["Cannot execute MATCH query: " ++ normalizeText q ++ ": " ++ e]) := by
  unfold search
  have h2 : st (normalizeText q) ∉ cjkScripts := by simpa using h
  simp [h2]

theorem search_match_error_caught_witness :
  (cjkScripts.contains ((fun _ => "en") (normalizeText "hello")) = false ∧
   search (fun _ => "en") true (Except.error "syntax err") "hello" =
     Except.ok (SearchResult.indexed [],
       ["Cannot execute MATCH query: " ++ normalizeText "hello" ++ ": " ++ "syntax err"])) :=
  ⟨rfl, search_match_error_caught (fun _ => "en") "syntax err" "hello" rfl⟩

/-! ### C3: the ranker computes the spec's weight and sorts descending -/

theorem chunked_cons4 (a b c d : Int) (rest : List Int) :
    chunked 4 (a :: b :: c :: d :: rest) = [a, b, c, d] :: chunked 4 rest := by
  cases rest <;> rfl

theorem positionsOf_cons4 (a b c d : Int) (rest : List Int) :
    positionsOf (a :: b :: c :: d :: rest) = c :: positionsOf rest := by
  unfold positionsOf
  have hlen : (a :: b :: c :: d :: rest).length / 4 = rest.length / 4 + 1 := by
    simp [List.length_cons]
    omega
  rw [hlen, List.range_succ_eq_map, List.map_cons, List.map_map]
  congr 1
  apply List.map_congr_left
  intro i _
  show (a :: b :: c :: d :: rest).getD (Nat.succ i * 4 + 2) 0 = rest.getD (i * 4 + 2) 0
  have h4 : Nat.succ i * 4 + 2 = (i * 4 + 2) + 4 := by omega
  rw [h4]
  rfl

theorem specPositions_eq : ∀ l : List Int, specPositions l = positionsOf l
  | [] => rfl
  | [_] => by simp [specPositions, specGroups, chunked, chunkAux, positionsOf]
  | [_, _] => by simp [specPositions, specGroups, chunked, chunkAux, positionsOf]
  | [_, _, _] => by simp [specPositions, specGroups, chunked, chunkAux, positionsOf]
  | a :: b :: c :: d :: rest => by
    have ih := specPositions_eq rest
    have hg : specGroups (a :: b :: c :: d :: rest) = [a, b, c, d] :: specGroups rest := by
      unfold specGroups
      rw [chunked_cons4]
      rfl
    rw [specPositions, hg, List.map_cons, positionsOf_cons4]
    rw [specPositions] at ih
    rw [ih]
    rfl

theorem specOcc_eq (l : List Int) : specOcc l = l.length / 4 := by
  have h := congrArg List.length (specPositions_eq l)
  simpa [specPositions, specOcc, positionsOf] using h

theorem spreadLoop_some (ps : List Int) : ∀ prev s : Int,
    spreadLoop ps (some prev) s = s + specSpread (prev :: ps) := by
  induction ps with
  | nil => intro prev s; simp [spreadLoop, specSpread]
  | cons d rest ih =>
    intro prev s
    show spreadLoop rest (some d) (s + (d - prev)) = s + specSpread (prev :: d :: rest)
    rw [ih]
    show s + (d - prev) + specSpread (d :: rest) = s + specSpread (prev :: d :: rest)
    have hz : specSpread (prev :: d :: rest) = (d - prev) + specSpread (d :: rest) := by
      unfold specSpread
      simp [List.zip_cons_cons]
    rw [hz]
    ring

theorem spreadLoop_none (ps : List Int) : spreadLoop ps none 0 = specSpread ps := by
  cases ps with
  | nil => rfl
  | cons p rest =>
    show spreadLoop rest (some p) 0 = specSpread (p :: rest)
    rw [spreadLoop_some]
    ring

theorem calculateWeight_eq_specWeight (offsets : List Int) (termCount : Nat) :
    calculateWeight offsets termCount = specWeight offsets termCount := by
  unfold calculateWeight specWeight
  rw [specOcc_eq, specPositions_eq, spreadLoop_none]

/-- C3: for every match row and parsed query the computed weight is the
occurrence count (number of 4-tuple groups) when `termCount = 1` and the
occurrence count divided by the spread (sum of successive differences of
the position fields, in reported order) otherwise — `specWeight` states the
claim's formula verbatim — and `rank` returns the scored rows in descending
weight order (a permutation of the scored input, pairwise ordered by
non-increasing weight). -/
theorem calculateWeight_spec_and_rank_descending :
  (∀ (offsets : List Int) (termCount : Nat),
     calculateWeight offsets termCount = specWeight offsets termCount) ∧
  (∀ (rows : List Row) (parsedQuery : ParsedQuery),
     (orderResults rows parsedQuery).Pairwise (fun a b => b.weight ≤ a.weight) ∧
     (orderResults rows parsedQuery).Perm (rows.map (scoreRow parsedQuery))) := by
  constructor
  · exact calculateWeight_eq_specWeight
  · intro rows parsedQuery
    constructor
    · letI : IsTotal ScoredRow (fun a b => b.weight ≤ a.weight) :=
        ⟨fun a b => le_total b.weight a.weight⟩
      letI : IsTrans ScoredRow (fun a b => b.weight ≤ a.weight) :=
        ⟨fun _ _ _ hab hbc => le_trans hbc hab⟩
      exact List.sorted_insertionSort _ _
    · exact List.perm_insertionSort _ _

/-! ### C6: rebuild coverage -/

theorem chunkAux_flatten (k : Nat) :
    ∀ (xs acc : List α) (room : Nat),
      (chunkAux k xs acc room).flatten = acc.reverse ++ xs := by
  intro xs
  induction xs with
  | nil => intro acc room; simp [chunkAux]
  | cons x xs ih =>
    intro acc room
    cases room with
    | succ room =>
      show (chunkAux k xs (x :: acc) room).flatten = acc.reverse ++ x :: xs
      rw [ih]
      simp
    | zero =>
      show (acc.reverse :: chunkAux k xs [x] (k - 1)).flatten = acc.reverse ++ x :: xs
      simp [ih]

theorem chunked_flatten (k : Nat) (l : List α) : (chunked k l).flatten = l := by
  cases l with
  | nil => rfl
  | cons x xs =>
    show (chunkAux k xs [x] (k - 1)).flatten = x :: xs
    rw [chunkAux_flatten]
    rfl

theorem flatMap_filter_chunks :
    ∀ (C : List (List String)) (E : List Note),
      (E.map Note.id).Nodup → C.flatten = E.map Note.id →
      C.flatMap (fun ck => E.filter (fun n => ck.contains n.id)) = E := by
  intro C
  induction C with
  | nil =>
    intro E _ hC
    have hE : E = [] := by
      have := hC.symm
      simpa [List.map_eq_nil_iff] using this
    simp [hE]
  | cons ck rest ih =>
    intro E hnd hC
    have hC2 : ck ++ rest.flatten = E.map Note.id := by simpa using hC
    have hck : ck = (E.take ck.length).map Note.id := by
      rw [List.map_take, ← hC2, List.take_left]
    have hrest : rest.flatten = (E.drop ck.length).map Note.id := by
      rw [List.map_drop, ← hC2, List.drop_left]
    have hsplit : (E.take ck.length).map Note.id ++ (E.drop ck.length).map Note.id
        = E.map Note.id := by
      rw [List.map_take, List.map_drop, List.take_append_drop]
    have hnd2 : ((E.take ck.length).map Note.id ++ (E.drop ck.length).map Note.id).Nodup := by
      rw [hsplit]; exact hnd
    have hdisj : ((E.take ck.length).map Note.id).Disjoint ((E.drop ck.length).map Note.id) :=
      (List.nodup_append.mp hnd2).2.2
    have hfilter1 : E.filter (fun n => ck.contains n.id) = E.take ck.length := by
      conv =>
        lhs
        rw [← List.take_append_drop ck.length E]
      rw [List.filter_append]
      have h1 : (E.take ck.length).filter (fun n => ck.contains n.id) = E.take ck.length := by
        rw [List.filter_eq_self]
        intro n hn
        have : n.id ∈ ck := by
          rw [hck]
          exact List.mem_map_of_mem Note.id hn
        simpa [List.elem_iff] using this
      have h2 : (E.drop ck.length).filter (fun n => ck.contains n.id) = [] := by
        rw [List.filter_eq_nil_iff]
        intro n hn
        have hmem : n.id ∈ (E.drop ck.length).map Note.id := List.mem_map_of_mem Note.id hn
        have hnot : n.id ∉ ck := by
          rw [hck]
          intro hc
          exact hdisj hc hmem
        simpa [List.elem_iff] using hnot
      rw [h1, h2, List.append_nil]
    have hfilter2 : ∀ ck2 ∈ rest,
        E.filter (fun n => ck2.contains n.id)
          = (E.drop ck.length).filter (fun n => ck2.contains n.id) := by
      intro ck2 hck2
      conv =>
        lhs
        rw [← List.take_append_drop ck.length E]
      rw [List.filter_append]
      have h1 : (E.take ck.length).filter (fun n => ck2.contains n.id) = [] := by
        rw [List.filter_eq_nil_iff]
        intro n hn
        have hmem : n.id ∈ (E.take ck.length).map Note.id := List.mem_map_of_mem Note.id hn
        have hnot : n.id ∉ ck2 := by
          intro hc
          have : n.id ∈ rest.flatten := List.mem_flatten.mpr ⟨ck2, hck2, hc⟩
          rw [hrest] at this
          exact hdisj hmem this
        simpa [List.elem_iff] using hnot
      rw [h1, List.nil_append]
    rw [List.flatMap_cons, hfilter1]
    have hmapc : rest.flatMap (fun ck2 => E.filter (fun n => ck2.contains n.id))
        = rest.flatMap (fun ck2 => (E.drop ck.length).filter (fun n => ck2.contains n.id)) := by
      unfold List.flatMap
      exact congrArg List.flatten (List.map_congr_left hfilter2)
    rw [hmapc]
    have hnd3 : ((E.drop ck.length).map Note.id).Nodup := (List.nodup_append.mp hnd2).2.1
    rw [ih (E.drop ck.length) hnd3 hrest]
    exact List.take_append_drop ck.length E

theorem rebuildIndex_rows (s : DbState) (hnd : (s.notes.map Note.id).Nodup) :
    (rebuildIndex s).notes_normalized
      = (s.notes.filter eligible).map (fun n => normalizedRowFor n.id n) := by
  unfold rebuildIndex
  show ((chunked 100 ((s.notes.filter eligible).map (fun n => n.id))).flatMap
      (fun currentIds =>
        (s.notes.filter (fun n => currentIds.contains n.id && eligible n)).map
          (fun n => normalizedRowFor n.id n)))
    = (s.notes.filter eligible).map (fun n => normalizedRowFor n.id n)
  have hinner : ∀ currentIds : List String,
      s.notes.filter (fun n => currentIds.contains n.id && eligible n)
        = (s.notes.filter eligible).filter (fun n => currentIds.contains n.id) := by
    intro currentIds
    rw [List.filter_filter]
  have hstep : (chunked 100 ((s.notes.filter eligible).map (fun n => n.id))).flatMap
      (fun currentIds =>
        (s.notes.filter (fun n => currentIds.contains n.id && eligible n)).map
          (fun n => normalizedRowFor n.id n))
    = ((chunked 100 ((s.notes.filter eligible).map (fun n => n.id))).flatMap
        (fun currentIds =>
          (s.notes.filter eligible).filter (fun n => currentIds.contains n.id))).map
        (fun n => normalizedRowFor n.id n) := by
    rw [List.map_flatMap]
    unfold List.flatMap
    apply congrArg List.flatten
    apply List.map_congr_left
    intro ck _
    rw [hinner]
  rw [hstep]
  have hndE : ((s.notes.filter eligible).map Note.id).Nodup :=
    ((List.filter_sublist s.notes).map Note.id).nodup hnd
  have hflat : (chunked 100 ((s.notes.filter eligible).map (fun n => n.id))).flatten
      = (s.notes.filter eligible).map Note.id := chunked_flatten 100 _
  rw [flatMap_filter_chunks _ _ hndE hflat]

/-- C6: after `rebuildIndex()` the ids in the normalized-index table are
exactly the ids of the source items with both flags false — as lists, in
source order, hence equal as sets — and they contain no duplicate, so there
is one NormalizedDocument row per such id. (Hypothesis: the source table has
unique ids, its primary-key invariant.) -/
theorem rebuildIndex_coverage (s : DbState) (hnd : (s.notes.map Note.id).Nodup) :
    ((rebuildIndex s).notes_normalized.map NormalizedRow.id
       = (s.notes.filter eligible).map Note.id) ∧
    ((rebuildIndex s).notes_normalized.map NormalizedRow.id).Nodup := by
  have h := rebuildIndex_rows s hnd
  have hids : (rebuildIndex s).notes_normalized.map NormalizedRow.id
      = (s.notes.filter eligible).map Note.id := by
    rw [h, List.map_map]
    apply List.map_congr_left
    intro n _
    rfl
  refine ⟨hids, ?_⟩
  rw [hids]
  exact ((List.filter_sublist s.notes).map Note.id).nodup hnd

/-- Witness state for C6: one eligible note, one conflicted, one encrypted. -/
def covState : DbState :=
  { notes := [{ id := "n1", title := "A", body := "B", is_conflict := false, encryption_applied := false },
              { id := "n2", title := "C", body := "D", is_conflict := true, encryption_applied := false },
              { id := "n3", title := "E", body := "F", is_conflict := false, encryption_applied := true }],
    notes_normalized := [{ id := "stale", title := "x", body := "y" }],
    item_changes := [], lastProcessedChangeId := 0,
    initialIndexingDone := false, isIndexing := false }

theorem rebuildIndex_coverage_witness :
  (covState.notes.map Note.id).Nodup ∧
  (((rebuildIndex covState).notes_normalized.map NormalizedRow.id
      = (covState.notes.filter eligible).map Note.id) ∧
   ((rebuildIndex covState).notes_normalized.map NormalizedRow.id).Nodup) :=
  ⟨by decide, rebuildIndex_coverage covState (by decide)⟩

/-! ### C5: watermark monotonicity -/

theorem fetchChanges_gt (changes : List ChangeRecord) (w : Nat) :
    ∀ c ∈ fetchChanges changes w, w < c.id := by
  intro c hc
  unfold fetchChanges at hc
  have h1 := List.mem_of_mem_take hc
  have h2 := (List.perm_insertionSort _ _).mem_iff.mp h1
  have h3 := List.of_mem_filter h2
  simp at h3
  exact h3.2

theorem fetchChanges_sorted (changes : List ChangeRecord) (w : Nat) :
    (fetchChanges changes w).Pairwise (fun a b => a.id ≤ b.id) := by
  unfold fetchChanges
  apply List.Pairwise.sublist (List.take_sublist _ _)
  letI : IsTotal ChangeRecord (fun a b => a.id ≤ b.id) :=
    ⟨fun a b => Nat.le_total a.id b.id⟩
  letI : IsTrans ChangeRecord (fun a b => a.id ≤ b.id) :=
    ⟨fun _ _ _ hab hbc => le_trans hab hbc⟩
  exact List.sorted_insertionSort _ _

theorem processChanges_ok_spec (fetched : List Note) :
    ∀ (batch : List ChangeRecord) (nn : List NormalizedRow) (w : Nat)
      (nn2 : List NormalizedRow) (w2 : Nat),
      processChanges fetched batch nn w = Except.ok (nn2, w2) →
      w2 = (batch.map ChangeRecord.id).getLastD w ∧
        (w2 = w ∨ ∃ c ∈ batch, w2 = c.id) := by
  intro batch
  induction batch with
  | nil =>
    intro nn w nn2 w2 h
    simp [processChanges] at h
    exact ⟨h.2.symm, Or.inl h.2.symm⟩
  | cons c rest ih =>
    intro nn w nn2 w2 h
    rw [List.map_cons, List.getLastD_cons]
    unfold processChanges at h
    split at h
    · split at h
      · have := ih _ _ _ _ h
        exact ⟨this.1, Or.inr (this.2.elim (fun he => ⟨c, List.mem_cons_self c rest, he⟩)
          (fun ⟨c2, hc2, he⟩ => ⟨c2, List.mem_cons_of_mem c hc2, he⟩))⟩
      · have := ih _ _ _ _ h
        exact ⟨this.1, Or.inr (this.2.elim (fun he => ⟨c, List.mem_cons_self c rest, he⟩)
          (fun ⟨c2, hc2, he⟩ => ⟨c2, List.mem_cons_of_mem c hc2, he⟩))⟩
    · split at h
      · have := ih _ _ _ _ h
        exact ⟨this.1, Or.inr (this.2.elim (fun he => ⟨c, List.mem_cons_self c rest, he⟩)
          (fun ⟨c2, hc2, he⟩ => ⟨c2, List.mem_cons_of_mem c hc2, he⟩))⟩
      · exact absurd h (by simp)

theorem syncLoop_spec : ∀ (fuel : Nat) (s : DbState),
    s.lastProcessedChangeId ≤ (syncLoop fuel s s.lastProcessedChangeId).1.lastProcessedChangeId ∧
    (syncLoop fuel s s.lastProcessedChangeId).1.initialIndexingDone = s.initialIndexingDone := by
  intro fuel
  induction fuel with
  | zero =>
    intro s
    exact ⟨le_refl _, rfl⟩
  | succ fuel ih =>
    intro s
    show s.lastProcessedChangeId ≤ (syncLoop (Nat.succ fuel) s s.lastProcessedChangeId).1.lastProcessedChangeId ∧ _
    unfold syncLoop
    by_cases hempty : (fetchChanges s.item_changes s.lastProcessedChangeId).isEmpty
    · simp only [hempty, if_true]
      exact ⟨le_refl _, rfl⟩
    · simp only [hempty, if_false, Bool.false_eq_true]
      cases hpb : processBatch s.notes (fetchChanges s.item_changes s.lastProcessedChangeId)
          s.notes_normalized s.lastProcessedChangeId with
      | error e => exact ⟨le_refl _, rfl⟩
      | ok p =>
        obtain ⟨nn, newLast⟩ := p
        have hspec := processChanges_ok_spec _ _ _ _ _ _ hpb
        have hw : s.lastProcessedChangeId ≤ newLast := by
          rcases hspec.2 with he | ⟨c, hc, he⟩
          · exact le_of_eq he.symm
          · exact le_of_lt (he ▸ fetchChanges_gt s.item_changes s.lastProcessedChangeId c hc)
        have hrec := ih { s with notes_normalized := nn, lastProcessedChangeId := newLast }
        exact ⟨le_trans hw hrec.1, hrec.2⟩

theorem changeLogMax_append (l : List ChangeRecord) (c : ChangeRecord) :
    changeLogMax l ≤ changeLogMax (l ++ [c]) := by
  unfold changeLogMax
  rw [List.foldl_append]
  exact Nat.le_max_left _ _

theorem wellFormed_append (s : DbState) (c : ChangeRecord) (h : WellFormed s) :
    WellFormed { s with item_changes := s.item_changes ++ [c] } := by
  rcases h with h | h
  · exact Or.inl h
  · exact Or.inr (le_trans h (changeLogMax_append s.item_changes c))

theorem syncTables_spec (s : DbState) (hwf : WellFormed s) :
    s.lastProcessedChangeId ≤ (syncTables s).1.lastProcessedChangeId ∧
    WellFormed (syncTables s).1 := by
  unfold syncTables
  by_cases hguard : s.isIndexing
  · simp only [hguard, if_true]
    exact ⟨le_refl _, hwf⟩
  · simp only [hguard, if_false, Bool.false_eq_true]
    by_cases hdone : s.initialIndexingDone
    · have hcond : ¬((!({ s with isIndexing := true } : DbState).initialIndexingDone) = true) := by
        simp [hdone]
      rw [if_neg hcond]
      have h := syncLoop_spec (s.item_changes.length + 1) { s with isIndexing := true }
      refine ⟨h.1, Or.inl ?_⟩
      rw [h.2]
      exact hdone
    · simp only [Bool.not_eq_true] at hdone
      have hcond : (!({ s with isIndexing := true } : DbState).initialIndexingDone) = true := by
        simp [hdone]
      rw [if_pos hcond]
      refine ⟨?_, Or.inl rfl⟩
      show s.lastProcessedChangeId ≤ changeLogMax s.item_changes
      rcases hwf with h | h
      · rw [hdone] at h
        exact absurd h (by simp)
      · exact h

theorem runEvents_monotone : ∀ (evs : List SyncEvent) (s : DbState), WellFormed s →
    s.lastProcessedChangeId ≤ (runEvents evs s).lastProcessedChangeId ∧
    WellFormed (runEvents evs s) := by
  intro evs
  induction evs with
  | nil => intro s hwf; exact ⟨le_refl _, hwf⟩
  | cons ev rest ih =>
    intro s hwf
    cases ev with
    | runSync =>
      have h := syncTables_spec s hwf
      have h2 := ih _ h.2
      exact ⟨le_trans h.1 h2.1, h2.2⟩
    | appendChange c =>
      exact ih _ (wellFormed_append s c hwf)

/-- C5: across every sequence of sync runs interleaved with change-log
appends, the persisted watermark never decreases (under the well-formedness
invariant, which is itself preserved); moreover records are fetched with id
strictly greater than the current watermark, in ascending id order, and an
applied batch advances the local watermark to the last fetched record's id
(`getLastD` of the batch ids). -/
theorem watermark_monotone :
  (∀ (evs : List SyncEvent) (s : DbState), WellFormed s →
     s.lastProcessedChangeId ≤ (runEvents evs s).lastProcessedChangeId) ∧
  (∀ (changes : List ChangeRecord) (w : Nat), ∀ c ∈ fetchChanges changes w, w < c.id) ∧
  (∀ (changes : List ChangeRecord) (w : Nat),
     (fetchChanges changes w).Pairwise (fun a b => a.id ≤ b.id)) ∧
  (∀ (notes : List Note) (batch : List ChangeRecord) (nn nn2 : List NormalizedRow)
     (w w2 : Nat), processBatch notes batch nn w = Except.ok (nn2, w2) →
     w2 = (batch.map ChangeRecord.id).getLastD w) := by
  refine ⟨fun evs s hwf => (runEvents_monotone evs s hwf).1,
          fetchChanges_gt, fetchChanges_sorted, ?_⟩
  intro notes batch nn nn2 w w2 h
  exact (processChanges_ok_spec _ _ _ _ _ _ h).1

/-- Witness state for C5: a plausible mid-life state, initial indexing done,
watermark 2, one pending change with id 5. -/
def wmState : DbState :=
  { notes := [{ id := "n1", title := "T", body := "B", is_conflict := false, encryption_applied := false }],
    notes_normalized := [], item_changes := [{ id := 5, item_id := "n1", item_type := 1, type := 1 }],
    lastProcessedChangeId := 2, initialIndexingDone := true, isIndexing := false }

theorem watermark_monotone_witness :
  WellFormed wmState ∧
  wmState.lastProcessedChangeId ≤ (runEvents [SyncEvent.runSync] wmState).lastProcessedChangeId :=
  ⟨Or.inl rfl, watermark_monotone.1 [SyncEvent.runSync] wmState (Or.inl rfl)⟩

end SearchEngine
